import Mathlib

/-!
Verification of the markdown-to-article conversion core of the repository
(`src/services/diffbot/convert_markdown.py`).

The core is a mistune `HTMLRenderer` subclass whose `link` and `paragraph`
callbacks are hijacked for side-effecting state accumulation, plus a
finalization pass (`get_articles`) and an input-normalization step
(`convert_markdown_to_articles`).  The markdown library itself (mistune) is
an external collaborator: it decomposes the document into an ordered stream
of link / paragraph / other events.  We embed the repository's code as an
explicit event-consuming state machine: each Python callback becomes a Lean
function on an explicit renderer state, and a run over a document is a fold
over the event list.  Python string primitives (`strip`, `startswith`,
`endswith`, `in`, slicing, `replace`, `split`) are modelled at the
character-list level with the same semantics.
-/

namespace TEConvert

/-- Model of Python `s.startswith(pre)`: `pre` is a prefix of `s`. -/
def pyStartsWith (s pre : String) : Bool := pre.toList.isPrefixOf s.toList

/-- Model of Python `s.endswith(suf)`: `suf` is a suffix of `s`. -/
def pyEndsWith (s suf : String) : Bool := suf.toList.isSuffixOf s.toList

/-- Strip, from both ends of a character list, the characters satisfying `p`
(the common core of Python's `str.strip` variants). -/
def stripListWith (p : Char → Bool) (l : List Char) : List Char :=
  ((l.dropWhile p).reverse.dropWhile p).reverse

/-- Model of Python `s.strip(chars)`: remove from both ends every character
belonging to the set `cs`. -/
def pyStripChars (cs : List Char) (s : String) : String :=
  String.mk (stripListWith (fun c => cs.contains c) s.toList)

/-- Model of Python `s.strip()` (no argument): remove leading and trailing
whitespace. -/
def pyStrip (s : String) : String :=
  String.mk (stripListWith Char.isWhitespace s.toList)

/-- Model of Python `s.replace(a, b)` for one-character `a` and `b`:
replace every occurrence. -/
def pyReplaceChar (s : String) (a b : Char) : String :=
  String.mk (s.toList.map (fun c => if c = a then b else c))

/-- Model of Python slicing `s[:n]`: the first `n` characters of `s`. -/
def pyTake (s : String) (n : Nat) : String := String.mk (s.toList.take n)

/-- Split a character list at the first occurrence of the pattern `pat`:
`some (a, b)` with the input equal to `a ++ pat ++ b` and the occurrence
leftmost, or `none` when `pat` does not occur. -/
def splitFirst (pat : List Char) : List Char → Option (List Char × List Char)
  | [] => if pat.isEmpty then some ([], []) else none
  | c :: cs =>
    if pat.isPrefixOf (c :: cs) then some ([], (c :: cs).drop pat.length)
    else
      match splitFirst pat cs with
      | some (a, b) => some (c :: a, b)
      | none => none

/-- Model of Python `pat in s` (substring containment test). -/
def pyContains (s pat : String) : Bool := (splitFirst pat.toList s.toList).isSome

/-- The site origin prepended to every title link's raw url
(`f"https://tradingeconomics.com{url}"` in `TEArticleRenderer.link`). -/
def ORIGIN : String := "https://tradingeconomics.com"

/-- The article record built by the renderer: the dict created in
`TEArticleRenderer.link` with fields `title`, `url`, `content`, `category`,
`published_at`, `source`, `author`, `summary`. -/
structure Article where
  title : String
  url : String
  content : String
  category : String
  published_at : String
  source : String
  author : String
  summary : String
deriving DecidableEq, Repr

/-- The fresh draft dict built in `TEArticleRenderer.link` when a bold-title
link is seen: `title` is `text.strip('*')`, `url` is the origin concatenated
with the raw url, and the remaining fields are the literal defaults. -/
def newArticle (text url : String) : Article where
  title := pyStripChars ['*'] text
  url := ORIGIN ++ url
  content := ""
  category := "Market News"
  published_at := ""
  source := "Trading Economics"
  author := "Trading Economics"
  summary := ""

/-- The condition `text.startswith('**') and text.endswith('**')` that makes
a link a new article title. -/
def isBoldTitle (text : String) : Bool :=
  pyStartsWith text "**" && pyEndsWith text "**"

/-- The renderer's mutable state: `current_article` (an optional open draft)
and `articles` (the committed list), as set up in `TEArticleRenderer.__init__`. -/
structure RenderState where
  current : Option Article
  articles : List Article
deriving DecidableEq, Repr

/-- The initial renderer state: `current_article = None`, `articles = []`. -/
def initState : RenderState := ⟨none, []⟩

/-- `TEArticleRenderer.link(text, url)`: a bold-wrapped text commits the open
draft (if any) and opens a fresh one; otherwise a url containing `stream?i=`
sets the open draft's category to `text.strip('[]').replace('+', ' ')`;
any other link changes nothing. -/
def handleLink (st : RenderState) (text url : String) : RenderState :=
  if isBoldTitle text then
    ⟨some (newArticle text url), st.articles ++ st.current.toList⟩
  else if pyContains url "stream?i=" then
    match st.current with
    | some a =>
        ⟨some { a with category := pyReplaceChar (pyStripChars ['[', ']'] text) '+' ' ' },
         st.articles⟩
    | none => st
  else st

/-- `TEArticleRenderer.paragraph(text)`: a no-op when no draft is open;
otherwise a text ending in `ago` overwrites `published_at` with the trimmed
text, a text starting with `[United States]` is dropped, and any other text
is appended to `content` with a blank-line separator when `content` is
already non-empty. -/
def handleParagraph (st : RenderState) (text : String) : RenderState :=
  match st.current with
  | none => st
  | some a =>
    if pyEndsWith text "ago" then
      ⟨some { a with published_at := pyStrip text }, st.articles⟩
    else if pyStartsWith text "[United States]" then st
    else
      ⟨some { a with content :=
          (if a.content = "" then "" else a.content ++ "\n\n") ++ text },
       st.articles⟩

/-- One event of the markdown structural walk: the renderer intercepts link
and paragraph events; every other callback of the `HTMLRenderer` base class
leaves the accumulated state untouched. -/
inductive MDEvent where
  | link (text url : String)
  | para (text : String)
  | other
deriving DecidableEq, Repr

/-- Dispatch one walker event to the corresponding renderer callback. -/
def step (st : RenderState) : MDEvent → RenderState
  | .link t u => handleLink st t u
  | .para t => handleParagraph st t
  | .other => st

/-- Run the renderer over a whole event stream from the initial state
(`markdown(markdown_text)` driving the callbacks in document order). -/
def runSplitter (evs : List MDEvent) : RenderState := evs.foldl step initState

/-- The end-of-input flush at the top of `get_articles`: the still-open
draft, if any, is appended to the committed list. -/
def flushState (st : RenderState) : List Article :=
  st.articles ++ st.current.toList

/-- The Splitter's draft output: run the event stream, then flush. -/
def draftArticles (evs : List MDEvent) : List Article :=
  flushState (runSplitter evs)

/-- The per-article body of the loop in `get_articles`:
`article['summary'] = article['content'][:200] if article['content'] else ''`
followed by `article['content'] = article['content'].strip()` — the summary
is taken from the content as accumulated, before the trim. -/
def finalizeArticle (a : Article) : Article :=
  { a with
    summary := if a.content = "" then "" else pyTake a.content 200
    content := pyStrip a.content }

/-- The Finalizer on a draft list: the `for article in self.articles` loop of
`get_articles`, which rewrites each record in place. -/
def finalize (l : List Article) : List Article := l.map finalizeArticle

/-- `TEArticleRenderer.get_articles`: flush the open draft, then finalize. -/
def getArticles (st : RenderState) : List Article := finalize (flushState st)

/-- The whole conversion at the event level
(`convert_markdown_to_articles` after input normalization): run the
renderer over the event stream and collect the finalized articles. -/
def convertEvents (evs : List MDEvent) : List Article :=
  getArticles (runSplitter evs)

/-- The literal navigation marker of `convert_markdown_to_articles`. -/
def NAV_MARKER : String := "- united states\n\n"

/-- The input normalization of `convert_markdown_to_articles`:
`if marker in text: text = text.split(marker)[1]`.  Element `[1]` of a
Python `split` is exactly the segment between the first occurrence of the
marker and the following occurrence (or the end of the string when the
marker occurs only once), which is what the nested `splitFirst` computes. -/
def normalizeRaw (s : String) : String :=
  if pyContains s NAV_MARKER then
    match splitFirst NAV_MARKER.toList s.toList with
    | some (_, rest) =>
      match splitFirst NAV_MARKER.toList rest with
      | some (mid, _) => String.mk mid
      | none => String.mk rest
    | none => s
  else s

/-- The events carrying a bold-wrapped link text, in document order, with
their raw urls: these are exactly the events that open a new draft. -/
def boldLinks (evs : List MDEvent) : List (String × String) :=
  evs.filterMap fun e =>
    match e with
    | .link t u => if isBoldTitle t then some (t, u) else none
    | _ => none

/-- Whether an event opens a new article (a link with bold-wrapped text). -/
def isTitleEvent : MDEvent → Bool
  | .link t _ => isBoldTitle t
  | _ => false

/-- A concrete open draft used to exercise the handlers on closed inputs. -/
def sampleDraft : Article := newArticle "**Fed Raises Rates**" "/news/1"

/-- A concrete draft whose accumulated content begins with whitespace. -/
def untrimmedDraft : Article := { sampleDraft with content := " x" }

/-! ## Infrastructure lemmas on the string primitives -/

theorem dropWhile_fix_of_prefix {p : Char → Bool} {q m : List Char}
    (hq : q <+: m) (hm : m.dropWhile p = m) : q.dropWhile p = q := by
  cases q with
  | nil => simp
  | cons x q' =>
    obtain ⟨r, hr⟩ := hq
    have hx : p x = false := by
      by_contra hpx
      have hpx' : p x = true := by simpa using hpx
      have h1 : m.dropWhile p = (q' ++ r).dropWhile p := by
        rw [← hr]
        simp [List.dropWhile_cons, hpx']
      have h2 : ((q' ++ r).dropWhile p).length ≤ (q' ++ r).length :=
        (List.dropWhile_suffix p).length_le
      rw [hm] at h1
      have : m.length ≤ (q' ++ r).length := h1 ▸ h2
      rw [← hr] at this
      simp at this
    simp [List.dropWhile_cons, hx]

theorem stripListWith_idem (p : Char → Bool) (l : List Char) :
    stripListWith p (stripListWith p l) = stripListWith p l := by
  have hm : (l.dropWhile p).dropWhile p = l.dropWhile p :=
    List.dropWhile_idempotent p l
  have hr_pre : stripListWith p l <+: l.dropWhile p := by
    have h := List.dropWhile_suffix (l := (l.dropWhile p).reverse) p
    have h2 := List.reverse_prefix.mpr h
    simpa [stripListWith] using h2
  have h1 : (stripListWith p l).dropWhile p = stripListWith p l :=
    dropWhile_fix_of_prefix hr_pre hm
  have h2 : (stripListWith p l).reverse.dropWhile p = (stripListWith p l).reverse := by
    have e : (stripListWith p l).reverse = (l.dropWhile p).reverse.dropWhile p := by
      simp [stripListWith]
    rw [e]
    exact List.dropWhile_idempotent p ((l.dropWhile p).reverse)
  show ((((stripListWith p l).dropWhile p).reverse).dropWhile p).reverse = stripListWith p l
  rw [h1, h2, List.reverse_reverse]

theorem mem_dropWhile_of_not {p : Char → Bool} {c : Char} :
    ∀ {l : List Char}, c ∈ l → p c = false → c ∈ l.dropWhile p := by
  intro l
  induction l with
  | nil => intro h; exact absurd h (List.not_mem_nil c)
  | cons a l' ih =>
    intro hc hpc
    by_cases hpa : p a = true
    · rw [List.dropWhile_cons_of_pos hpa]
      rcases List.mem_cons.mp hc with h | h
      · subst h; rw [hpc] at hpa; exact absurd hpa (by simp)
      · exact ih h hpc
    · rw [List.dropWhile_cons_of_neg hpa]
      exact hc

theorem stripListWith_ne_nil {p : Char → Bool} {l : List Char} {c : Char}
    (hc : c ∈ l) (hpc : p c = false) : stripListWith p l ≠ [] := by
  have h1 : c ∈ l.dropWhile p := mem_dropWhile_of_not hc hpc
  have h2 : c ∈ (l.dropWhile p).reverse := List.mem_reverse.mpr h1
  have h3 : c ∈ (l.dropWhile p).reverse.dropWhile p := mem_dropWhile_of_not h2 hpc
  have h4 : (l.dropWhile p).reverse.dropWhile p ≠ [] := List.ne_nil_of_mem h3
  simpa [stripListWith] using h4

theorem mk_eq_empty_iff (l : List Char) : String.mk l = "" ↔ l = [] := by
  constructor
  · intro h
    have := congrArg String.data h
    simpa using this
  · intro h; subst h; rfl

/-! ## Infrastructure lemmas on `splitFirst` -/

theorem splitFirst_isSome_iff (pat : List Char) :
    ∀ s : List Char, (splitFirst pat s).isSome = true ↔ pat <:+: s := by
  intro s
  induction s with
  | nil =>
    by_cases hp : pat = []
    · subst hp; simp [splitFirst]
    · simp [splitFirst, List.isEmpty_iff, hp]
  | cons c cs ih =>
    by_cases hp : pat.isPrefixOf (c :: cs)
    · simp only [splitFirst, hp, if_true, Option.isSome_some, true_iff]
      exact (List.isPrefixOf_iff_prefix.mp hp).isInfix
    · have hp' : ¬ pat <+: (c :: cs) := fun h => hp (List.isPrefixOf_iff_prefix.mpr h)
      simp only [splitFirst, hp, if_false]
      rw [List.infix_cons_iff]
      cases h : splitFirst pat cs with
      | none => simp [h] at ih ⊢; tauto
      | some ab => simp [h] at ih ⊢; tauto

theorem splitFirst_at_junction (pat : List Char) (hpat : pat ≠ []) :
    ∀ (a b : List Char), ¬ (pat <:+: (a ++ pat.dropLast)) →
      splitFirst pat (a ++ pat ++ b) = some (a, b) := by
  intro a
  induction a with
  | nil =>
    intro b _
    show splitFirst pat (pat ++ b) = some ([], b)
    cases hpc : pat with
    | nil => exact absurd hpc hpat
    | cons p ps =>
      have hpre : (p :: ps).isPrefixOf (p :: (ps ++ b)) = true := by
        simp
      have hdrop : List.drop (p :: ps).length (p :: (ps ++ b)) = b := by
        exact List.drop_left (p :: ps) b
      show splitFirst (p :: ps) (p :: (ps ++ b)) = some ([], b)
      simp only [splitFirst, hpre, if_true, hdrop]
  | cons c a' ih =>
    intro b h
    have hlen : 1 ≤ pat.length := List.length_pos.mpr hpat
    obtain ⟨g, hg⟩ : ∃ g, pat.dropLast ++ [g] = pat :=
      ⟨_, List.dropLast_append_getLast hpat⟩
    have hnp : pat.isPrefixOf (c :: (a' ++ pat ++ b)) = false := by
      rw [Bool.eq_false_iff]
      intro hpre
      have hpre' : pat <+: (c :: (a' ++ pat ++ b)) := List.isPrefixOf_iff_prefix.mp hpre
      have hJ : ((c :: a') ++ pat.dropLast) <+: (c :: (a' ++ pat ++ b)) := by
        have e : (c :: (a' ++ pat ++ b))
            = ((c :: a') ++ pat.dropLast) ++ ([g] ++ b) := by
          rw [← hg]; simp
        rw [e]
        exact List.prefix_append _ _
      have hle : pat.length ≤ ((c :: a') ++ pat.dropLast).length := by
        simp only [List.length_append, List.length_cons, List.length_dropLast]
        omega
      have : pat <+: ((c :: a') ++ pat.dropLast) :=
        List.prefix_of_prefix_length_le hpre' hJ hle
      exact h this.isInfix
    have h' : ¬ (pat <:+: (a' ++ pat.dropLast)) := fun hx => h (List.infix_cons hx)
    have hrec := ih b h'
    show splitFirst pat (c :: (a' ++ pat ++ b)) = some (c :: a', b)
    simp only [splitFirst, hnp, Bool.false_eq_true, if_false, hrec]

/-! ## Invariants of the Splitter's run -/

theorem boldLinks_cons (e : MDEvent) (evs : List MDEvent) :
    boldLinks (e :: evs) = boldLinks [e] ++ boldLinks evs := by
  cases e with
  | link t u =>
    by_cases hb : isBoldTitle t = true
    · simp [boldLinks, List.filterMap_cons, hb]
    · have hb' : isBoldTitle t = false := by simpa using hb
      simp [boldLinks, List.filterMap_cons, hb']
  | para t => simp [boldLinks, List.filterMap_cons]
  | other => simp [boldLinks, List.filterMap_cons]

theorem flush_step_titleUrl (st : RenderState) (e : MDEvent) :
    (flushState (step st e)).map (fun a => (a.title, a.url))
      = (flushState st).map (fun a => (a.title, a.url))
        ++ (boldLinks [e]).map (fun p => (pyStripChars ['*'] p.1, ORIGIN ++ p.2)) := by
  cases e with
  | link t u =>
    by_cases hb : isBoldTitle t = true
    · simp [step, handleLink, hb, flushState, boldLinks, newArticle, Option.toList]
    · have hb' : isBoldTitle t = false := by simpa using hb
      by_cases hc : pyContains u "stream?i=" = true
      · cases hcur : st.current with
        | none => simp [step, handleLink, hb', hc, hcur, flushState, boldLinks]
        | some a =>
          simp [step, handleLink, hb', hc, hcur, flushState, boldLinks, Option.toList]
      · have hc' : pyContains u "stream?i=" = false := by simpa using hc
        simp [step, handleLink, hb', hc', flushState, boldLinks]
  | para t =>
    cases hcur : st.current with
    | none => simp [step, handleParagraph, hcur, boldLinks]
    | some a =>
      by_cases h1 : pyEndsWith t "ago" = true
      · simp [step, handleParagraph, hcur, h1, flushState, boldLinks, Option.toList]
      · have h1' : pyEndsWith t "ago" = false := by simpa using h1
        by_cases h2 : pyStartsWith t "[United States]" = true
        · simp [step, handleParagraph, hcur, h1', h2, flushState, boldLinks]
        · have h2' : pyStartsWith t "[United States]" = false := by simpa using h2
          simp [step, handleParagraph, hcur, h1', h2', flushState, boldLinks,
            Option.toList]
  | other => simp [step, boldLinks]

theorem flush_foldl_titleUrl (evs : List MDEvent) :
    ∀ st : RenderState,
      (flushState (evs.foldl step st)).map (fun a => (a.title, a.url))
        = (flushState st).map (fun a => (a.title, a.url))
          ++ (boldLinks evs).map (fun p => (pyStripChars ['*'] p.1, ORIGIN ++ p.2)) := by
  induction evs with
  | nil => intro st; simp [boldLinks]
  | cons e evs ih =>
    intro st
    rw [List.foldl_cons]
    rw [ih (step st e), flush_step_titleUrl st e, boldLinks_cons e evs]
    simp [List.map_append, List.append_assoc]

theorem draft_titleUrl (evs : List MDEvent) :
    (draftArticles evs).map (fun a => (a.title, a.url))
      = (boldLinks evs).map (fun p => (pyStripChars ['*'] p.1, ORIGIN ++ p.2)) := by
  have h := flush_foldl_titleUrl evs initState
  simpa [draftArticles, runSplitter, initState, flushState] using h

theorem foldl_no_title_fix (evs : List MDEvent) :
    ∀ l : List Article, (∀ e ∈ evs, isTitleEvent e = false) →
      evs.foldl step ⟨none, l⟩ = ⟨none, l⟩ := by
  induction evs with
  | nil => intro l _; rfl
  | cons e evs ih =>
    intro l h
    have he : isTitleEvent e = false := h e (List.mem_cons_self e evs)
    have hstep : step ⟨none, l⟩ e = ⟨none, l⟩ := by
      cases e with
      | link t u =>
        have hb : isBoldTitle t = false := by simpa [isTitleEvent] using he
        by_cases hc : pyContains u "stream?i=" = true
        · simp [step, handleLink, hb, hc]
        · have hc' : pyContains u "stream?i=" = false := by simpa using hc
          simp [step, handleLink, hb, hc']
      | para t => simp [step, handleParagraph]
      | other => rfl
    rw [List.foldl_cons, hstep]
    exact ih l (fun e' he' => h e' (List.mem_cons_of_mem e he'))

theorem str_eq_empty_iff (s : String) : s = "" ↔ s.toList = [] := by
  constructor
  · intro h; subst h; rfl
  · intro h
    have h2 : String.mk s.toList = String.mk [] := by rw [h]
    exact h2

theorem pyStrip_idem (s : String) : pyStrip (pyStrip s) = pyStrip s := by
  show String.mk (stripListWith Char.isWhitespace
      (stripListWith Char.isWhitespace s.toList)) = _
  rw [stripListWith_idem]
  rfl

theorem draft_mem_structure (evs : List MDEvent) (d : Article)
    (hd : d ∈ draftArticles evs) :
    ∃ t u, MDEvent.link t u ∈ evs ∧ isBoldTitle t = true
      ∧ d.title = pyStripChars ['*'] t ∧ d.url = ORIGIN ++ u := by
  have h := draft_titleUrl evs
  have hmem : (d.title, d.url) ∈ (draftArticles evs).map (fun a => (a.title, a.url)) :=
    List.mem_map_of_mem _ hd
  rw [h] at hmem
  obtain ⟨⟨t, u⟩, htu, heq⟩ := List.mem_map.mp hmem
  rw [boldLinks] at htu
  obtain ⟨e, he, hfe⟩ := List.mem_filterMap.mp htu
  have he1 : pyStripChars ['*'] t = d.title := congrArg Prod.fst heq
  have he2 : ORIGIN ++ u = d.url := congrArg Prod.snd heq
  cases e with
  | link t' u' =>
    by_cases hb : isBoldTitle t' = true
    · have hsome : (t', u') = (t, u) := by simpa [hb] using hfe
      have ht2 : t' = t := congrArg Prod.fst hsome
      have hu2 : u' = u := congrArg Prod.snd hsome
      refine ⟨t, u, ?_, ?_, he1.symm, he2.symm⟩
      · rw [← ht2, ← hu2]; exact he
      · rw [← ht2]; exact hb
    · have hb' : isBoldTitle t' = false := by simpa using hb
      simp [hb'] at hfe
  | para t' => simp at hfe
  | other => simp at hfe

/-! ## Claim theorems -/

/-- C1: for every event stream, the Splitter's draft output has exactly one
article per bold-emphasis title link, in document order, whose title is the
link text with the asterisk markers stripped and whose url is the site
origin concatenated with the raw link url; a bold-title link commits the
previously open article (if any) and opens a fresh draft with every other
field at its default; no other event commits an article before the
end-of-input flush. -/
theorem c1_bold_title_splitting :
    (∀ evs : List MDEvent,
      (draftArticles evs).map (fun a => (a.title, a.url))
        = (boldLinks evs).map (fun p => (pyStripChars ['*'] p.1, ORIGIN ++ p.2)))
    ∧ (∀ evs : List MDEvent, (draftArticles evs).length = (boldLinks evs).length)
    ∧ (∀ (st : RenderState) (text url : String), isBoldTitle text = true →
        step st (.link text url) =
          ⟨some { title := pyStripChars ['*'] text, url := ORIGIN ++ url,
                  content := "", category := "Market News", published_at := "",
                  source := "Trading Economics", author := "Trading Economics",
                  summary := "" },
           st.articles ++ st.current.toList⟩)
    ∧ (∀ (st : RenderState) (e : MDEvent), isTitleEvent e = false →
        (step st e).articles = st.articles) := by
  refine ⟨draft_titleUrl, ?_, ?_, ?_⟩
  · intro evs
    have h := congrArg List.length (draft_titleUrl evs)
    simpa using h
  · intro st text url hb
    simp [step, handleLink, hb, newArticle]
  · intro st e he
    cases e with
    | link t u =>
      have hb : isBoldTitle t = false := by simpa [isTitleEvent] using he
      by_cases hc : pyContains u "stream?i=" = true
      · cases hcur : st.current with
        | none => simp [step, handleLink, hb, hc, hcur]
        | some a => simp [step, handleLink, hb, hc, hcur]
      · have hc' : pyContains u "stream?i=" = false := by simpa using hc
        simp [step, handleLink, hb, hc']
    | para t =>
      cases hcur : st.current with
      | none => simp [step, handleParagraph, hcur]
      | some a =>
        by_cases h1 : pyEndsWith t "ago" = true
        · simp [step, handleParagraph, hcur, h1]
        · have h1' : pyEndsWith t "ago" = false := by simpa using h1
          by_cases h2 : pyStartsWith t "[United States]" = true
          · simp [step, handleParagraph, hcur, h1', h2]
          · have h2' : pyStartsWith t "[United States]" = false := by simpa using h2
            simp [step, handleParagraph, hcur, h1', h2']
    | other => rfl

/-- Witness for C1: a concrete bold-title link event opens a fresh default
draft and the two-title scenario yields two articles in order. -/
theorem c1_bold_title_splitting_witness :
    isBoldTitle "**Fed Raises Rates**" = true
    ∧ step initState (MDEvent.link "**Fed Raises Rates**" "/news/1")
        = ⟨some (newArticle "**Fed Raises Rates**" "/news/1"), []⟩ :=
  ⟨by decide,
   c1_bold_title_splitting.2.2.1 initState "**Fed Raises Rates**" "/news/1" (by decide)⟩

/-- C2: a paragraph event is a no-op when no article is open; otherwise the
text falls into exactly one bucket: a text ending in "ago" overwrites the
open article's `published_at` with the trimmed text (last write wins) and
leaves every article's content unchanged; a text starting with
"[United States]" changes nothing; any other text is appended to the open
article's content, with a blank-line separator exactly when the content was
already non-empty. -/
theorem c2_paragraph_classification :
    (∀ (st : RenderState) (text : String), st.current = none →
        handleParagraph st text = st)
    ∧ (∀ (st : RenderState) (a : Article) (text : String), st.current = some a →
        pyEndsWith text "ago" = true →
        handleParagraph st text =
          ⟨some { a with published_at := pyStrip text }, st.articles⟩)
    ∧ (∀ (st : RenderState) (text : String), pyEndsWith text "ago" = true →
        (flushState (handleParagraph st text)).map Article.content
          = (flushState st).map Article.content)
    ∧ (∀ (st : RenderState) (a : Article) (text : String), st.current = some a →
        pyEndsWith text "ago" = false →
        pyStartsWith text "[United States]" = true →
        handleParagraph st text = st)
    ∧ (∀ (st : RenderState) (a : Article) (text : String), st.current = some a →
        pyEndsWith text "ago" = false →
        pyStartsWith text "[United States]" = false →
        handleParagraph st text =
          ⟨some { a with content :=
              (if a.content = "" then "" else a.content ++ "\n\n") ++ text },
           st.articles⟩) := by
  refine ⟨?_, ?_, ?_, ?_, ?_⟩
  · intro st text h
    simp [handleParagraph, h]
  · intro st a text hcur h1
    simp [handleParagraph, hcur, h1]
  · intro st text h1
    cases hcur : st.current with
    | none => simp [handleParagraph, hcur]
    | some a => simp [handleParagraph, hcur, h1, flushState, Option.toList]
  · intro st a text hcur h1 h2
    simp [handleParagraph, hcur, h1, h2]
  · intro st a text hcur h1 h2
    simp [handleParagraph, hcur, h1, h2]

/-- Witness for C2: a timestamp paragraph on a concrete open draft sets
`published_at` to the trimmed text, and a body paragraph is appended
without a leading separator. -/
theorem c2_paragraph_classification_witness :
    (⟨some sampleDraft, []⟩ : RenderState).current = some sampleDraft
    ∧ pyEndsWith " 3 hours ago" "ago" = true
    ∧ handleParagraph ⟨some sampleDraft, []⟩ " 3 hours ago"
        = ⟨some { sampleDraft with published_at := pyStrip " 3 hours ago" }, []⟩ :=
  ⟨rfl, by decide,
   c2_paragraph_classification.2.1 ⟨some sampleDraft, []⟩ sampleDraft
     " 3 hours ago" rfl (by decide)⟩

/-- C3 fails on the code: `get_articles` computes the summary from the
content as accumulated and only afterwards trims the content, so an article
whose accumulated content is " x" ends with final content "x" but summary
" x" — the summary is neither the first 200 characters of the trimmed
content nor a prefix of it. -/
theorem c3_counterexample :
    (convertEvents [MDEvent.link "**T**" "/a", MDEvent.para " x"]).map
        (fun a => (a.summary, a.content)) = [(" x", "x")]
    ∧ (" x" : String) ≠ pyTake "x" 200
    ∧ pyStartsWith "x" " x" = false := by
  refine ⟨by decide, by decide, by decide⟩

/-- C3 amended: the summary is the first 200 characters of the accumulated
(pre-trim) content — empty exactly when the accumulated content is empty —
hence a prefix of the accumulated content of length at most 200; whenever
the accumulated content carries no leading or trailing whitespace (so the
trim is the identity on it), the claim's consequences do hold: the summary
is a prefix of the final content and is empty iff the final content is
empty. -/
theorem c3_summary_from_untrimmed_content :
    ∀ a : Article,
      ((finalizeArticle a).summary
          = if a.content = "" then "" else pyTake a.content 200)
      ∧ ((finalizeArticle a).summary.toList <+: a.content.toList)
      ∧ ((finalizeArticle a).summary.length ≤ 200)
      ∧ ((finalizeArticle a).summary = "" ↔ a.content = "")
      ∧ (a.content = pyStrip a.content →
          ((finalizeArticle a).summary.toList <+: (finalizeArticle a).content.toList
            ∧ ((finalizeArticle a).summary = "" ↔ (finalizeArticle a).content = ""))) := by
  intro a
  have hsum : (finalizeArticle a).summary
      = if a.content = "" then "" else pyTake a.content 200 := rfl
  have hcont : (finalizeArticle a).content = pyStrip a.content := rfl
  have hpre : (finalizeArticle a).summary.toList <+: a.content.toList := by
    rw [hsum]
    by_cases hc : a.content = ""
    · simp [hc]
    · rw [if_neg hc]
      exact List.take_prefix 200 a.content.toList
  have hlen : (finalizeArticle a).summary.length ≤ 200 := by
    rw [hsum]
    by_cases hc : a.content = ""
    · rw [if_pos hc]; decide
    · rw [if_neg hc]
      show (a.content.toList.take 200).length ≤ 200
      rw [List.length_take]
      exact Nat.min_le_left 200 _
  have hiff : (finalizeArticle a).summary = "" ↔ a.content = "" := by
    rw [hsum]
    by_cases hc : a.content = ""
    · simp [hc]
    · rw [if_neg hc]
      constructor
      · intro h
        have h2 : a.content.toList.take 200 = [] := (mk_eq_empty_iff _).mp h
        have h3 : a.content.toList = [] := by
          rcases List.take_eq_nil_iff.mp h2 with h | h
          · exact absurd h (by norm_num)
          · exact h
        exact absurd ((str_eq_empty_iff _).mpr h3) hc
      · intro h; exact absurd h hc
  refine ⟨hsum, hpre, hlen, hiff, ?_⟩
  intro htrim
  constructor
  · rw [hcont, ← htrim]
    exact hpre
  · rw [hcont, ← htrim]
    exact hiff

/-- Witness for C3's amended statement on a concrete already-trimmed
article: the summary of the finalized sample draft with body "Hi" is a
prefix of its final content. -/
theorem c3_summary_from_untrimmed_content_witness :
    ({ sampleDraft with content := "Hi" } : Article).content
        = pyStrip ({ sampleDraft with content := "Hi" } : Article).content
    ∧ ((finalizeArticle { sampleDraft with content := "Hi" }).summary.toList
          <+: (finalizeArticle { sampleDraft with content := "Hi" }).content.toList
        ∧ ((finalizeArticle { sampleDraft with content := "Hi" }).summary = ""
            ↔ (finalizeArticle { sampleDraft with content := "Hi" }).content = "")) :=
  ⟨by decide,
   (c3_summary_from_untrimmed_content { sampleDraft with content := "Hi" }).2.2.2.2
     (by decide)⟩

/-- C4 fails on the code: the Finalizer is not idempotent, because the
summary of the second pass is recomputed from the now-trimmed content.  On
a draft whose content is " x" the first pass stores summary " x" and trims
the content to "x"; the second pass recomputes summary "x". -/
theorem c4_counterexample :
    finalize (finalize [untrimmedDraft]) ≠ finalize [untrimmedDraft]
    ∧ (finalize (finalize [untrimmedDraft])).map Article.summary = ["x"]
    ∧ (finalize [untrimmedDraft]).map Article.summary = [" x"] := by
  refine ⟨by decide, by decide, by decide⟩

theorem article_fields_ext {a b : Article}
    (h1 : a.title = b.title) (h2 : a.url = b.url) (h3 : a.content = b.content)
    (h4 : a.category = b.category) (h5 : a.published_at = b.published_at)
    (h6 : a.source = b.source) (h7 : a.author = b.author)
    (h8 : a.summary = b.summary) : a = b := by
  cases a; cases b
  simp_all

/-- C4 amended: re-trimming never changes the content (content is
idempotently finalized), and the whole Finalizer is idempotent exactly on
draft lists whose contents carry no leading or trailing whitespace — on
those, re-running it is a no-op and the recomputed summary matches the
stored one. -/
theorem c4_finalizer_idem_on_trimmed :
    (∀ l : List Article, (finalize (finalize l)).map Article.content
        = (finalize l).map Article.content)
    ∧ (∀ l : List Article, (∀ a ∈ l, a.content = pyStrip a.content) →
        finalize (finalize l) = finalize l) := by
  have hAA : ∀ a : Article, a.content = pyStrip a.content →
      finalizeArticle (finalizeArticle a) = finalizeArticle a := by
    intro a h
    refine article_fields_ext ?_ ?_ ?_ ?_ ?_ ?_ ?_ ?_
    · rfl
    · rfl
    · show pyStrip (pyStrip a.content) = pyStrip a.content
      exact pyStrip_idem a.content
    · rfl
    · rfl
    · rfl
    · rfl
    · show (if pyStrip a.content = "" then "" else pyTake (pyStrip a.content) 200)
          = (if a.content = "" then "" else pyTake a.content 200)
      rw [← h]
  constructor
  · intro l
    show ((l.map finalizeArticle).map finalizeArticle).map Article.content
        = (l.map finalizeArticle).map Article.content
    rw [List.map_map, List.map_map, List.map_map]
    refine List.map_congr_left ?_
    intro a _
    show pyStrip (pyStrip a.content) = pyStrip a.content
    exact pyStrip_idem a.content
  · intro l h
    show (l.map finalizeArticle).map finalizeArticle = l.map finalizeArticle
    rw [List.map_map]
    refine List.map_congr_left ?_
    intro a ha
    exact hAA a (h a ha)

/-- Witness for C4's amended statement: on a singleton list whose content
is already trimmed, running the Finalizer twice equals running it once. -/
theorem c4_finalizer_idem_on_trimmed_witness :
    (∀ a ∈ [{ sampleDraft with content := "Hi" }], a.content = pyStrip a.content)
    ∧ finalize (finalize [{ sampleDraft with content := "Hi" }])
        = finalize [{ sampleDraft with content := "Hi" }] :=
  ⟨by decide,
   c4_finalizer_idem_on_trimmed.2 [{ sampleDraft with content := "Hi" }] (by decide)⟩

/-- C5 fails on the code: `convert_markdown_to_articles` keeps element `[1]`
of the Python split, so when the marker occurs twice only the text between
the first and the second occurrence survives — not all of the remaining
text after the first occurrence. -/
theorem c5_counterexample :
    normalizeRaw "A- united states\n\nB- united states\n\nC" = "B"
    ∧ ("B" : String) ≠ "B- united states\n\nC" := by
  refine ⟨by decide, by decide⟩

/-- C5 amended: when the marker is absent the full text passes through
unchanged; when it occurs, the text handed to the Splitter is the segment
strictly between the first occurrence and the next occurrence of the
marker — which is all of the remaining text exactly when the marker occurs
only once. -/
theorem c5_normalization_between_markers :
    (∀ s : String, pyContains s NAV_MARKER = false → normalizeRaw s = s)
    ∧ (∀ a b : List Char,
        ¬ (NAV_MARKER.toList <:+: (a ++ NAV_MARKER.toList.dropLast)) →
        ¬ (NAV_MARKER.toList <:+: b) →
        normalizeRaw (String.mk (a ++ NAV_MARKER.toList ++ b)) = String.mk b)
    ∧ (∀ a b c : List Char,
        ¬ (NAV_MARKER.toList <:+: (a ++ NAV_MARKER.toList.dropLast)) →
        ¬ (NAV_MARKER.toList <:+: (b ++ NAV_MARKER.toList.dropLast)) →
        normalizeRaw (String.mk (a ++ NAV_MARKER.toList ++ (b ++ NAV_MARKER.toList ++ c)))
          = String.mk b) := by
  have hpat : NAV_MARKER.toList ≠ [] := by decide
  refine ⟨?_, ?_, ?_⟩
  · intro s h
    simp [normalizeRaw, h]
  · intro a b h1 h2
    have hfst : splitFirst NAV_MARKER.toList (a ++ NAV_MARKER.toList ++ b) = some (a, b) :=
      splitFirst_at_junction NAV_MARKER.toList hpat a b h1
    have hsnd : splitFirst NAV_MARKER.toList b = none := by
      cases hb : splitFirst NAV_MARKER.toList b with
      | none => rfl
      | some x =>
        exact absurd ((splitFirst_isSome_iff NAV_MARKER.toList b).mp (by rw [hb]; rfl)) h2
    have hin : pyContains (String.mk (a ++ NAV_MARKER.toList ++ b)) NAV_MARKER = true := by
      show (splitFirst NAV_MARKER.toList (a ++ NAV_MARKER.toList ++ b)).isSome = true
      rw [hfst]; rfl
    show normalizeRaw (String.mk (a ++ NAV_MARKER.toList ++ b)) = String.mk b
    rw [normalizeRaw, if_pos hin]
    show (match splitFirst NAV_MARKER.toList (a ++ NAV_MARKER.toList ++ b) with
      | some (_, rest) =>
        match splitFirst NAV_MARKER.toList rest with
        | some (mid, _) => String.mk mid
        | none => String.mk rest
      | none => String.mk (a ++ NAV_MARKER.toList ++ b)) = String.mk b
    rw [hfst]
    show (match splitFirst NAV_MARKER.toList b with
      | some (mid, _) => String.mk mid
      | none => String.mk b) = String.mk b
    rw [hsnd]
  · intro a b c h1 h2
    have hfst : splitFirst NAV_MARKER.toList
        (a ++ NAV_MARKER.toList ++ (b ++ NAV_MARKER.toList ++ c))
          = some (a, b ++ NAV_MARKER.toList ++ c) :=
      splitFirst_at_junction NAV_MARKER.toList hpat a (b ++ NAV_MARKER.toList ++ c) h1
    have hsnd : splitFirst NAV_MARKER.toList (b ++ NAV_MARKER.toList ++ c) = some (b, c) :=
      splitFirst_at_junction NAV_MARKER.toList hpat b c h2
    have hin : pyContains (String.mk (a ++ NAV_MARKER.toList ++ (b ++ NAV_MARKER.toList ++ c)))
        NAV_MARKER = true := by
      show (splitFirst NAV_MARKER.toList
        (a ++ NAV_MARKER.toList ++ (b ++ NAV_MARKER.toList ++ c))).isSome = true
      rw [hfst]; rfl
    rw [normalizeRaw, if_pos hin]
    show (match splitFirst NAV_MARKER.toList
        (a ++ NAV_MARKER.toList ++ (b ++ NAV_MARKER.toList ++ c)) with
      | some (_, rest) =>
        match splitFirst NAV_MARKER.toList rest with
        | some (mid, _) => String.mk mid
        | none => String.mk rest
      | none => String.mk (a ++ NAV_MARKER.toList ++ (b ++ NAV_MARKER.toList ++ c)))
        = String.mk b
    rw [hfst]
    show (match splitFirst NAV_MARKER.toList (b ++ NAV_MARKER.toList ++ c) with
      | some (mid, _) => String.mk mid
      | none => String.mk (b ++ NAV_MARKER.toList ++ c)) = String.mk b
    rw [hsnd]

/-- Witness for C5's amended statement: with a single marker occurrence the
full remainder passes through. -/
theorem c5_normalization_between_markers_witness :
    ¬ (NAV_MARKER.toList <:+: ("xyz".toList ++ NAV_MARKER.toList.dropLast))
    ∧ ¬ (NAV_MARKER.toList <:+: "hello".toList)
    ∧ normalizeRaw (String.mk ("xyz".toList ++ NAV_MARKER.toList ++ "hello".toList))
        = String.mk "hello".toList :=
  ⟨by decide, by decide,
   c5_normalization_between_markers.2.1 "xyz".toList "hello".toList
     (by decide) (by decide)⟩

/-- C6: a non-bold link whose url contains "stream?i=" sets the open
article's category to the link text with enclosing brackets stripped and
every '+' replaced by a space, overwriting any previous value; with no
article open it changes nothing. -/
theorem c6_category_stream_link :
    (∀ (st : RenderState) (a : Article) (text url : String),
        st.current = some a → isBoldTitle text = false →
        pyContains url "stream?i=" = true →
        step st (.link text url) =
          ⟨some { a with category :=
              pyReplaceChar (pyStripChars ['[', ']'] text) '+' ' ' },
           st.articles⟩)
    ∧ (∀ (st : RenderState) (text url : String),
        st.current = none → isBoldTitle text = false →
        step st (.link text url) = st) := by
  constructor
  · intro st a text url hcur hb hc
    simp [step, handleLink, hb, hc, hcur]
  · intro st text url hcur hb
    by_cases hc : pyContains url "stream?i=" = true
    · simp [step, handleLink, hb, hc, hcur]
    · have hc' : pyContains url "stream?i=" = false := by simpa using hc
      simp [step, handleLink, hb, hc']

/-- Witness for C6: the category link `[[United+States]](/stream?i=5)` after
a title sets the category of the open draft. -/
theorem c6_category_stream_link_witness :
    (⟨some sampleDraft, []⟩ : RenderState).current = some sampleDraft
    ∧ isBoldTitle "[United+States]" = false
    ∧ pyContains "/stream?i=5" "stream?i=" = true
    ∧ step ⟨some sampleDraft, []⟩ (MDEvent.link "[United+States]" "/stream?i=5")
        = ⟨some { sampleDraft with category := "United States" }, []⟩ :=
  ⟨rfl, by decide, by decide,
   c6_category_stream_link.1 ⟨some sampleDraft, []⟩ sampleDraft
     "[United+States]" "/stream?i=5" rfl (by decide) (by decide)⟩

/-- C7: finalization returns a list of the same length, in the same order,
dropping no article and altering only `summary` and `content`: title, url,
category, published_at, source and author pass through unchanged. -/
theorem c7_finalizer_frame :
    ∀ l : List Article,
      (finalize l).length = l.length
      ∧ (finalize l).map Article.title = l.map Article.title
      ∧ (finalize l).map Article.url = l.map Article.url
      ∧ (finalize l).map Article.category = l.map Article.category
      ∧ (finalize l).map Article.published_at = l.map Article.published_at
      ∧ (finalize l).map Article.source = l.map Article.source
      ∧ (finalize l).map Article.author = l.map Article.author := by
  intro l
  refine ⟨by simp [finalize], ?_, ?_, ?_, ?_, ?_, ?_⟩ <;>
    (show (l.map finalizeArticle).map _ = l.map _
     rw [List.map_map]
     exact List.map_congr_left (fun a _ => rfl))

/-- C8: an event stream with no bold-title link produces the empty list —
not an error — since no draft is ever opened. -/
theorem c8_no_bold_titles_empty_output :
    ∀ evs : List MDEvent, (∀ e ∈ evs, isTitleEvent e = false) →
      convertEvents evs = [] := by
  intro evs h
  have hfold := foldl_no_title_fix evs [] h
  show getArticles (evs.foldl step initState) = []
  rw [show initState = (⟨none, []⟩ : RenderState) from rfl, hfold]
  rfl

/-- Witness for C8: a stream of paragraphs, a category link and an inert
event yields no articles. -/
theorem c8_no_bold_titles_empty_output_witness :
    (∀ e ∈ [MDEvent.para "hello", MDEvent.link "[United States]" "/stream?i=5",
        MDEvent.other], isTitleEvent e = false)
    ∧ convertEvents [MDEvent.para "hello", MDEvent.link "[United States]" "/stream?i=5",
        MDEvent.other] = [] :=
  ⟨by decide,
   c8_no_bold_titles_empty_output
     [MDEvent.para "hello", MDEvent.link "[United States]" "/stream?i=5", MDEvent.other]
     (by decide)⟩

/-- C9 fails on the code: `text.strip('*')` applied to a title-link text
consisting only of asterisks (such as `**`) yields an empty string, so a
finalized article can carry an empty title. -/
theorem c9_counterexample :
    (convertEvents [MDEvent.link "**" "/x"]).map Article.title = [""] := by
  decide

/-- C9 amended: every finalized title is a bold-wrapped link text with its
leading and trailing asterisks stripped, so titles are non-empty provided
every bold-title link text contains at least one non-asterisk character;
only a title link whose text is all asterisks produces an empty title. -/
theorem c9_title_nonempty_unless_all_asterisks :
    ∀ evs : List MDEvent,
      (∀ text url, MDEvent.link text url ∈ evs → isBoldTitle text = true →
        ∃ ch ∈ text.toList, ¬ ch = '*') →
      ∀ a ∈ convertEvents evs, ¬ a.title = "" := by
  intro evs h a ha
  obtain ⟨d, hd, hfd⟩ := List.mem_map.mp ha
  obtain ⟨t, u, hmem, hbold, htitle, _⟩ := draft_mem_structure evs d hd
  obtain ⟨ch, hch, hch'⟩ := h t u hmem hbold
  have hat : a.title = d.title := by rw [← hfd]; rfl
  rw [hat, htitle]
  intro hempty
  have hnil : stripListWith (fun c => (['*'] : List Char).contains c) t.toList = [] :=
    (mk_eq_empty_iff _).mp hempty
  have hp : (fun c => (['*'] : List Char).contains c) ch = false := by
    simpa using hch'
  exact stripListWith_ne_nil hch hp hnil

/-- Witness for C9's amended statement: a stream with the single title link
`[**T**](/a)` yields one article whose title is non-empty. -/
theorem c9_title_nonempty_unless_all_asterisks_witness :
    finalizeArticle (newArticle "**T**" "/a") ∈ convertEvents [MDEvent.link "**T**" "/a"]
    ∧ ¬ (finalizeArticle (newArticle "**T**" "/a")).title = "" :=
  ⟨by decide, by
    refine c9_title_nonempty_unless_all_asterisks [MDEvent.link "**T**" "/a"] ?_ _ (by decide)
    intro text url hmem _
    have he : MDEvent.link text url = MDEvent.link "**T**" "/a" := by simpa using hmem
    injection he with h1 h2
    subst h1
    exact ⟨'T', by decide, by decide⟩⟩

/-- C10: every output article's url begins with the literal site origin
"https://tradingeconomics.com"; the origin is prepended unconditionally to
the raw title-link target, with no check for path-relativity, so it is
prepended even to a target that is already an absolute url. -/
theorem c10_url_starts_with_origin :
    (∀ evs : List MDEvent, ∀ a ∈ convertEvents evs, pyStartsWith a.url ORIGIN = true)
    ∧ (∀ (st : RenderState) (text url : String), isBoldTitle text = true →
        ((step st (.link text url)).current).map Article.url = some (ORIGIN ++ url)) := by
  constructor
  · intro evs a ha
    obtain ⟨d, hd, hfd⟩ := List.mem_map.mp ha
    obtain ⟨t, u, _, _, _, hurl⟩ := draft_mem_structure evs d hd
    have hau : a.url = ORIGIN ++ u := by rw [← hfd]; exact hurl
    show ORIGIN.toList.isPrefixOf a.url.toList = true
    rw [hau]
    apply List.isPrefixOf_iff_prefix.mpr
    show ORIGIN.toList <+: (ORIGIN ++ u).toList
    rw [show (ORIGIN ++ u).toList = ORIGIN.toList ++ u.toList from String.data_append ORIGIN u]
    exact List.prefix_append _ _
  · intro st text url hb
    simp [step, handleLink, hb, newArticle]

/-- Witness for C10: a title link whose raw target is already an absolute
url still gets the origin prepended, so the output url starts with the
origin. -/
theorem c10_url_starts_with_origin_witness :
    finalizeArticle (newArticle "**T**" "https://example.com/x")
        ∈ convertEvents [MDEvent.link "**T**" "https://example.com/x"]
    ∧ pyStartsWith (finalizeArticle (newArticle "**T**" "https://example.com/x")).url
        ORIGIN = true :=
  ⟨by decide,
   c10_url_starts_with_origin.1 [MDEvent.link "**T**" "https://example.com/x"] _ (by decide)⟩

end TEConvert
